import Mathlib

/-!
Shallow embedding of the VaporFrame-Engine memory subsystem
(MemoryManager.cpp / MemoryManager.h): MemoryPool, StackAllocator,
MemoryTracker and the MemoryManager facade.

Machine integers (std::size_t, std::uintptr_t) are modelled as Nat with
explicit reduction modulo 2^64 at each arithmetic step where the source
performs unsigned 64-bit arithmetic.  Pointers are modelled as Nat
addresses; the null pointer is address 0.  The doubly linked list of
blocks that tiles one arena is modelled as a Lean list in address order:
the next pointer of the i-th entry is the (i+1)-th entry and the prev
pointer the (i-1)-th, so the pointer surgery in splitBlock and
mergeAdjacentBlocks becomes the corresponding list edit at the matched
position.  The freeBlocks vector is modelled as the list of block
addresses in push_back order, and blockMap as address lookup over the
arena lists.  OS virtual-memory mapping (mmap / VirtualAlloc) is
modelled by a list of base addresses granted in order; a granted base 0
models a failed mapping.
-/

namespace VaporFrame

/-- Width of std::size_t and std::uintptr_t: 2 to the 64. -/
def W64 : Nat := 18446744073709551616

/-- Reduction modulo 2^64, the effect of storing into a 64-bit unsigned. -/
def w64 (n : Nat) : Nat := n % W64

/-- 64-bit unsigned addition. -/
def add64 (a b : Nat) : Nat := w64 (a + b)

/-- 64-bit unsigned subtraction (wraps below zero, as size_t does). -/
def sub64 (a b : Nat) : Nat := w64 (a + (W64 - w64 b))

/-- 64-bit bitwise complement of a value already below 2^64. -/
def not64 (n : Nat) : Nat := (W64 - 1) - n

/-- The aligned address computed by the source as
(uintptr(data) + alignment - 1) AND NOT (alignment - 1). -/
def alignedAddr (data a : Nat) : Nat :=
  w64 (data + a - 1) &&& not64 (w64 (a - 1))

/-- MemoryStats from MemoryManager.h: six size_t counters plus a
fragmentation field, all zero after reset. -/
structure MemoryStats where
  totalAllocated : Nat := 0
  totalFreed : Nat := 0
  peakUsage : Nat := 0
  currentUsage : Nat := 0
  allocationCount : Nat := 0
  deallocationCount : Nat := 0
  fragmentation : Nat := 0
deriving DecidableEq, Repr

/-- The stats update performed on a successful pool or stack allocation:
totalAllocated += size; currentUsage += size; allocationCount++;
peakUsage = max(peakUsage, currentUsage). -/
def MemoryStats.onAlloc (st : MemoryStats) (size : Nat) : MemoryStats :=
  let cu := add64 st.currentUsage size
  { st with
    totalAllocated := add64 st.totalAllocated size
    currentUsage := cu
    allocationCount := add64 st.allocationCount 1
    peakUsage := max st.peakUsage cu }

/-- MemoryPool::Block: data pointer, size, used flag.  The prev and next
links are represented by adjacency in the per-arena block list. -/
structure Block where
  data : Nat
  size : Nat
  used : Bool
deriving DecidableEq, Repr

/-- One OS-mapped region from the pools vector, together with the chain
of blocks that tiles it. -/
structure Arena where
  base : Nat
  asize : Nat
  blocks : List Block
deriving DecidableEq, Repr

/-- MemoryPoolConfig from MemoryManager.h. -/
structure MemoryPoolConfig where
  initialSize : Nat := 1048576
  maxSize : Nat := 104857600
  blockSize : Nat := 4096
  alignment : Nat := 16
  enableTracking : Bool := true
  name : String := "DefaultPool"
deriving DecidableEq, Repr

/-- The mutable state of one MemoryPool object: its config, the pools
vector of arenas (in acquisition order), the freeBlocks vector (block
addresses in push_back order), the stats, and the remaining OS grants. -/
structure PoolState where
  cfg : MemoryPoolConfig
  arenas : List Arena
  freeOrder : List Nat
  stats : MemoryStats
  sys : List Nat
deriving DecidableEq, Repr

/-- Does the half-open byte range of a block contain address q. -/
def containsPtr (b : Block) (q : Nat) : Bool :=
  decide (b.data ≤ q) && decide (q < b.data + b.size)

/-- Scan a block chain for the first block whose range contains q. -/
def findContainingL : List Block → Nat → Option Block
  | [], _ => none
  | b :: bs, q => if containsPtr b q then some b else findContainingL bs q

/-- Scan all arenas for a block whose range contains q: the loop over
blockMap in MemoryPool::deallocate, reallocate, getSize and owns. -/
def findContainingA : List Arena → Nat → Option Block
  | [], _ => none
  | ar :: ars, q =>
    match findContainingL ar.blocks q with
    | some b => some b
    | none => findContainingA ars q

/-- Resolve a pointer to the block whose range contains it. -/
def PoolState.findContaining (s : PoolState) (q : Nat) : Option Block :=
  findContainingA s.arenas q

/-- MemoryPool::owns: true when some block range contains the pointer. -/
def PoolState.owns (s : PoolState) (q : Nat) : Bool :=
  (s.findContaining q).isSome

/-- Scan a block chain for the block whose data address is d. -/
def lookupL : List Block → Nat → Option Block
  | [], _ => none
  | b :: bs, d => if b.data = d then some b else lookupL bs d

/-- Scan all arenas for the block whose data address is d. -/
def lookupBlockA : List Arena → Nat → Option Block
  | [], _ => none
  | ar :: ars, d =>
    match lookupL ar.blocks d with
    | some b => some b
    | none => lookupBlockA ars d

/-- The blockMap lookup: resolve a data address to its block. -/
def PoolState.lookupBlock (s : PoolState) (d : Nat) : Option Block :=
  lookupBlockA s.arenas d

/-- The fit test of MemoryPool::findFreeBlock: the block is not used and
alignment padding plus size fits in it (size_t arithmetic). -/
def fitsBlock (b : Block) (size a : Nat) : Bool :=
  !b.used &&
    decide (add64 (sub64 (alignedAddr b.data a) b.data) size ≤ b.size)

/-- Walk the freeBlocks vector in push_back order, returning the data
address of the first block that fits: first-fit in list order. -/
def findFreeIn (s : PoolState) : List Nat → Nat → Nat → Option Nat
  | [], _, _ => none
  | d :: ds, size, a =>
    match s.lookupBlock d with
    | some b => if fitsBlock b size a then some d else findFreeIn s ds size a
    | none => findFreeIn s ds size a

/-- MemoryPool::findFreeBlock. -/
def PoolState.findFreeBlock (s : PoolState) (size a : Nat) : Option Nat :=
  findFreeIn s s.freeOrder size a

/-- Flip the used flag of the block at data address d. -/
def markUsedL (bs : List Block) (d : Nat) (v : Bool) : List Block :=
  bs.map fun b => if b.data = d then { b with used := v } else b

/-- State-level used-flag update for the block at address d. -/
def PoolState.markUsed (s : PoolState) (d : Nat) (v : Bool) : PoolState :=
  { s with arenas := s.arenas.map fun ar => { ar with blocks := markUsedL ar.blocks d v } }

/-- MemoryPool::splitBlock on one block chain.  At the block whose data
address is d: keep it whole if usedSize is not smaller than its size or
the remainder is below config.blockSize; otherwise shrink it to usedSize
and insert the remainder as a new free block right after it.  Returns
the edited chain and the data address of the inserted block, if any. -/
def splitL (blockSize : Nat) : List Block → Nat → Nat → List Block × Option Nat
  | [], _, _ => ([], none)
  | b :: bs, d, u =>
    if b.data = d then
      if u ≥ b.size then (b :: bs, none)
      else if b.size - u < blockSize then (b :: bs, none)
      else (⟨b.data, u, b.used⟩ :: ⟨b.data + u, b.size - u, false⟩ :: bs,
            some (b.data + u))
    else
      let r := splitL blockSize bs d u
      (b :: r.1, r.2)

/-- Apply splitL inside the arena holding the block at address d. -/
def splitArenas (blockSize : Nat) : List Arena → Nat → Nat → List Arena × Option Nat
  | [], _, _ => ([], none)
  | ar :: ars, d, u =>
    match splitL blockSize ar.blocks d u with
    | (bs, some n) => ({ ar with blocks := bs } :: ars, some n)
    | (_, none) =>
      let r := splitArenas blockSize ars d u
      (ar :: r.1, r.2)

/-- MemoryPool::splitBlock at state level: edit the chain and push the
new free block onto the freeBlocks vector (and blockMap). -/
def PoolState.splitBlock (s : PoolState) (d u : Nat) : PoolState :=
  match splitArenas s.cfg.blockSize s.arenas d u with
  | (ars, some n) => { s with arenas := ars, freeOrder := s.freeOrder ++ [n] }
  | (ars, none) => { s with arenas := ars }

/-- First half of MemoryPool::mergeAdjacentBlocks on one chain: if the
block after the block at address d is free, absorb it.  Returns the
edited chain and the data address of the absorbed block, if any. -/
def mergeNextL : List Block → Nat → List Block × Option Nat
  | [], _ => ([], none)
  | b :: bs, d =>
    if b.data = d then
      match bs with
      | [] => (b :: bs, none)
      | n :: rest =>
        if n.used then (b :: n :: rest, none)
        else (⟨b.data, b.size + n.size, b.used⟩ :: rest, some n.data)
    else
      let r := mergeNextL bs d
      (b :: r.1, r.2)

/-- Second half of MemoryPool::mergeAdjacentBlocks on one chain: if the
block before the block at address d is free, it absorbs that block.
Returns the edited chain and the address of the removed block, if any. -/
def mergePrevL : List Block → Nat → List Block × Option Nat
  | [], _ => ([], none)
  | p :: bs, d =>
    match bs with
    | [] => (p :: bs, none)
    | b :: rest =>
      if b.data = d then
        if p.used then (p :: b :: rest, none)
        else (⟨p.data, p.size + b.size, p.used⟩ :: rest, some b.data)
      else
        let r := mergePrevL (b :: rest) d
        (p :: r.1, r.2)

/-- Apply a per-chain merge step inside the arena holding address d.
The step function returns the edited chain and a removed address. -/
def mergeArenas (step : List Block → Nat → List Block × Option Nat) :
    List Arena → Nat → List Arena × Option Nat
  | [], _ => ([], none)
  | ar :: ars, d =>
    match step ar.blocks d with
    | (bs, some n) => ({ ar with blocks := bs } :: ars, some n)
    | (_, none) =>
      let r := mergeArenas step ars d
      (ar :: r.1, r.2)

/-- Remove an absorbed block address from the freeBlocks vector, as the
std::find plus erase in the source does (and from blockMap, which is
implicit in the chain edit). -/
def dropFree (fo : List Nat) : Option Nat → List Nat
  | some n => fo.erase n
  | none => fo

/-- MemoryPool::mergeAdjacentBlocks: merge the block at address d with
its next block if that one is free, then with its previous block if
that one is free. -/
def PoolState.mergeAdjacentBlocks (s : PoolState) (d : Nat) : PoolState :=
  let r₁ := mergeArenas mergeNextL s.arenas d
  let s₁ := { s with arenas := r₁.1, freeOrder := dropFree s.freeOrder r₁.2 }
  let r₂ := mergeArenas mergePrevL s₁.arenas d
  { s₁ with arenas := r₂.1, freeOrder := dropFree s₁.freeOrder r₂.2 }

/-- MemoryPool::expand: refuse when the pools vector is empty; sum
config.initialSize once per existing arena (exactly as the source loop
does); refuse when that sum plus additionalSize exceeds config.maxSize;
otherwise consume the next OS grant (base 0 models a failed mapping) and
append a single-block arena of additionalSize bytes. -/
def PoolState.expand (s : PoolState) (additionalSize : Nat) : Bool × PoolState :=
  if s.arenas.isEmpty then (false, s)
  else
    let totalSize := s.arenas.foldl (fun t _ => add64 t s.cfg.initialSize) 0
    if add64 totalSize additionalSize > s.cfg.maxSize then (false, s)
    else
      match s.sys with
      | [] => (false, s)
      | b :: rest =>
        if b = 0 then (false, { s with sys := rest })
        else
          (true,
           { s with
             sys := rest
             arenas := s.arenas ++ [⟨b, additionalSize, [⟨b, additionalSize, false⟩]⟩]
             freeOrder := s.freeOrder ++ [b] })

/-- The tail of a successful MemoryPool::allocate: mark the chosen block
used and apply the stats update. -/
def allocFinish (s : PoolState) (d size : Nat) : PoolState :=
  let s₂ := s.markUsed d true
  { s₂ with stats := s₂.stats.onAlloc size }

/-- The body of MemoryPool::allocate after a candidate block has been
found: recompute the aligned address and padding, fail if padding plus
size overshoots the block, split the block when padding plus size is
strictly below its size, mark it used, update stats and return the
aligned address. -/
def PoolState.allocAt (s : PoolState) (d size a : Nat) : Option Nat × PoolState :=
  match s.lookupBlock d with
  | none => (none, s)
  | some b =>
    if add64 (sub64 (alignedAddr b.data a) b.data) size > b.size then (none, s)
    else if add64 (sub64 (alignedAddr b.data a) b.data) size < b.size then
      (some (alignedAddr b.data a),
       allocFinish (s.splitBlock d (add64 (sub64 (alignedAddr b.data a) b.data) size)) d size)
    else (some (alignedAddr b.data a), allocFinish s d size)

/-- MemoryPool::allocate: reject size 0; first-fit search; on failure
expand by max(size, blockSize) and retry the search once. -/
def PoolState.allocate (s : PoolState) (size a : Nat) : Option Nat × PoolState :=
  if size = 0 then (none, s)
  else
    match s.findFreeBlock size a with
    | some d => s.allocAt d size a
    | none =>
      let r := s.expand (max size s.cfg.blockSize)
      if r.1 then
        match r.2.findFreeBlock size a with
        | some d => r.2.allocAt d size a
        | none => (none, r.2)
      else (none, r.2)

/-- MemoryPool::deallocate: ignore null; resolve the pointer by
address-range containment; ignore a miss or an already-free block;
update stats with the block size, mark the block free and coalesce. -/
def PoolState.deallocate (s : PoolState) (q : Nat) : PoolState :=
  if q = 0 then s
  else
    match s.findContaining q with
    | none => s
    | some b =>
      if !b.used then s
      else
        let st :=
          { s.stats with
            totalFreed := add64 s.stats.totalFreed b.size
            currentUsage := sub64 s.stats.currentUsage b.size
            deallocationCount := add64 s.stats.deallocationCount 1 }
        let s₁ := { s.markUsed b.data false with stats := st }
        s₁.mergeAdjacentBlocks b.data

/-- The memcpy performed by the growing branch of reallocate, as an
observable event: source pointer, target pointer, byte count. -/
structure CopyEvent where
  src : Nat
  dst : Nat
  len : Nat
deriving DecidableEq, Repr

/-- MemoryPool::reallocate.  A null pointer turns into allocate (with
the default alignment 8), size 0 into deallocate.  If the new size fits
in the containing block the same pointer is returned with no copy;
otherwise allocate a new block, copy a number of bytes equal to the old block size and
bytes and deallocate the old pointer. -/
def PoolState.reallocate (s : PoolState) (p newSize : Nat) :
    Option Nat × PoolState × Option CopyEvent :=
  if p = 0 then
    let r := s.allocate newSize 8
    (r.1, r.2, none)
  else if newSize = 0 then (none, s.deallocate p, none)
  else
    match s.findContaining p with
    | none => (none, s, none)
    | some b =>
      if newSize ≤ b.size then (some p, s, none)
      else
        let r := s.allocate newSize 8
        match r.1 with
        | some np => (some np, r.2.deallocate p, some ⟨p, np, b.size⟩)
        | none => (none, r.2, none)

/-- The MemoryPool constructor: map the initial arena (one spanning free
block) from the first OS grant; a grant of 0 models a failed mapping and
leaves the pool empty. -/
def mkMemoryPool (cfg : MemoryPoolConfig) (sys : List Nat) : PoolState :=
  match sys with
  | [] => ⟨cfg, [], [], {}, []⟩
  | b :: rest =>
    if b = 0 then ⟨cfg, [], [], {}, rest⟩
    else
      ⟨cfg, [⟨b, cfg.initialSize, [⟨b, cfg.initialSize, false⟩]⟩], [b], {}, rest⟩

/-- One public call on a MemoryPool, for reachability statements. -/
inductive PoolOp where
  | alloc (size a : Nat)
  | dealloc (p : Nat)
  | realloc (p newSize : Nat)
  | expandBy (n : Nat)
deriving DecidableEq, Repr

/-- Apply one public call, keeping only the state. -/
def runOp (s : PoolState) : PoolOp → PoolState
  | .alloc size a => (s.allocate size a).2
  | .dealloc p => s.deallocate p
  | .realloc p n => (s.reallocate p n).2.1
  | .expandBy n => (s.expand n).2

/-- Apply a sequence of public calls. -/
def runOps (s : PoolState) (ops : List PoolOp) : PoolState :=
  ops.foldl runOp s

/-! ### StackAllocator -/

/-- The state of one StackAllocator: the arena base obtained from malloc, its fixed
size, the bump offset and the stats. -/
structure StackState where
  memory : Nat
  totalSize : Nat
  currentOffset : Nat
  stats : MemoryStats
deriving DecidableEq, Repr

/-- StackAllocator::allocate: reject size 0; align the address at the
bump position; fail when offset plus padding plus size exceeds the
arena; otherwise advance the offset, update stats and return the
aligned address. -/
def StackState.allocate (st : StackState) (size a : Nat) : Option Nat × StackState :=
  if size = 0 then (none, st)
  else
    let ao := alignedAddr (st.memory + st.currentOffset) a
    let padding := sub64 ao (w64 (st.memory + st.currentOffset))
    if add64 (add64 st.currentOffset padding) size > st.totalSize then (none, st)
    else
      (some ao,
       { st with
         currentOffset := add64 st.currentOffset (add64 padding size)
         stats := st.stats.onAlloc size })

/-- StackAllocator::getMarker: the current bump address. -/
def StackState.getMarker (st : StackState) : Nat :=
  st.memory + st.currentOffset

/-- StackAllocator::freeToMarker: ignore a marker outside the arena;
rewind to the marker's offset only when that does not advance the
current offset. -/
def StackState.freeToMarker (st : StackState) (m : Nat) : StackState :=
  if m < st.memory ∨ m > st.memory + st.totalSize then st
  else
    let newOffset := m - st.memory
    if newOffset ≤ st.currentOffset then { st with currentOffset := newOffset }
    else st

/-- StackAllocator::getCurrentOffset. -/
def StackState.getCurrentOffset (st : StackState) : Nat :=
  st.currentOffset

/-! ### MemoryTracker -/

/-- AllocationInfo from MemoryManager.h (the steady-clock timestamp is
outside the embedding and omitted). -/
structure AllocInfo where
  ptr : Nat
  size : Nat
  alignment : Nat
  tag : String
  file : String
  line : Nat
  isArray : Bool
deriving DecidableEq, Repr

/-- Insert-or-assign on an association list keyed by pointer: the
behavior of unordered_map operator square brackets. -/
def insertA : List (Nat × AllocInfo) → Nat → AllocInfo → List (Nat × AllocInfo)
  | [], k, v => [(k, v)]
  | (k₀, v₀) :: rest, k, v =>
    if k₀ = k then (k, v) :: rest else (k₀, v₀) :: insertA rest k v

/-- Lookup by pointer in the tracker table. -/
def lookupA (l : List (Nat × AllocInfo)) (k : Nat) : Option AllocInfo :=
  (l.find? fun e => e.1 == k).map (·.2)

/-- Number of records a pointer key has in the tracker table. -/
def countKey (l : List (Nat × AllocInfo)) (k : Nat) : Nat :=
  (l.filter fun e => e.1 == k).length

/-- The state of the MemoryTracker singleton: the live-allocation table,
the aggregate stats, and the tracking switch. -/
structure TrackerState where
  allocations : List (Nat × AllocInfo)
  globalStats : MemoryStats
  trackingEnabled : Bool
deriving DecidableEq, Repr

/-- MemoryTracker::trackAllocation: no-op when tracking is disabled;
otherwise insert-or-assign the record and bump the aggregate stats. -/
def TrackerState.trackAllocation (tr : TrackerState) (p size a : Nat)
    (tag file : String) (line : Nat) (isArray : Bool) : TrackerState :=
  if !tr.trackingEnabled then tr
  else
    { tr with
      allocations := insertA tr.allocations p ⟨p, size, a, tag, file, line, isArray⟩
      globalStats := tr.globalStats.onAlloc size }

/-! ### MemoryManager facade -/

/-- The state of the MemoryManager singleton that the facade claims
need: the default pool, the tracker reference, the flag set by the
one-time setup call, and the aligned-fallback grants from the platform
allocator (0 models a failed platform allocation). -/
structure ManagerState where
  defaultPool : Option PoolState
  tracker : TrackerState
  inited : Bool
  sysFallback : List Nat
deriving DecidableEq, Repr

/-- MemoryPool::allocate together with its tracker side effect: when the
pool config enables tracking, a successful allocation is registered with
the global tracker under the pool config name with empty file and line 0. -/
def poolAllocateT (pl : PoolState) (tr : TrackerState) (size a : Nat) :
    Option Nat × PoolState × TrackerState :=
  let r := pl.allocate size a
  match r.1 with
  | some q =>
    (some q, r.2,
     if pl.cfg.enableTracking then tr.trackAllocation q size a pl.cfg.name "" 0 false
     else tr)
  | none => (none, r.2, tr)

/-- MemoryManager::allocate: before setup, fall straight back to the
platform allocator without tracking; otherwise try the default pool
first and register the result with the tracker when tracking is
enabled; when the pool rejects, fall back to the platform allocator,
registering a successful fallback likewise. -/
def ManagerState.allocate (m : ManagerState) (size a : Nat)
    (tag file : String) (line : Nat) : Option Nat × ManagerState :=
  if !m.inited then
    match m.sysFallback with
    | [] => (none, m)
    | q :: rest =>
      (if q = 0 then none else some q, { m with sysFallback := rest })
  else
    let viaSystem : ManagerState → Option Nat × ManagerState := fun m₁ =>
      match m₁.sysFallback with
      | [] => (none, m₁)
      | q :: rest =>
        if q = 0 then (none, { m₁ with sysFallback := rest })
        else
          (some q,
           { m₁ with
             sysFallback := rest
             tracker :=
               if m₁.tracker.trackingEnabled then
                 m₁.tracker.trackAllocation q size a tag file line false
               else m₁.tracker })
    match m.defaultPool with
    | some pl =>
      let r := poolAllocateT pl m.tracker size a
      match r.1 with
      | some q =>
        let tr₂ :=
          if r.2.2.trackingEnabled then
            r.2.2.trackAllocation q size a tag file line false
          else r.2.2
        (some q, { m with defaultPool := some r.2.1, tracker := tr₂ })
      | none => viaSystem { m with defaultPool := some r.2.1, tracker := r.2.2 }
    | none => viaSystem m

/-! ### Invariant predicates -/

/-- The chain starting at address s tiles the byte range from s to e:
each block starts exactly where the previous one ended, with no gaps,
no overlaps and nothing outside the range. -/
def tilesb : Nat → List Block → Nat → Bool
  | s, [], e => s == e
  | s, b :: bs, e => (b.data == s) && tilesb (s + b.size) bs e

/-- An arena is tiled when its chain tiles exactly its byte range. -/
def Arena.tiled (ar : Arena) : Bool :=
  tilesb ar.base ar.blocks (ar.base + ar.asize)

/-- Every arena of the pool is tiled. -/
def tiledAll (s : PoolState) : Bool :=
  s.arenas.all Arena.tiled

/-- All arenas end at or below 2^63: realistic user address space, the
bound under which the alignment mask arithmetic does not wrap. -/
def boundedArenas (s : PoolState) : Bool :=
  s.arenas.all fun ar => decide (ar.base + ar.asize ≤ 2 ^ 63)

/-- Pending OS grants are failures or stay in bounds for a request of
the given size: base plus max(size, blockSize) at or below 2^63. -/
def sysOK (s : PoolState) (size : Nat) : Bool :=
  s.sys.all fun b => (b == 0) || decide (b + max size s.cfg.blockSize ≤ 2 ^ 63)

/-- Two arenas occupy disjoint address ranges. -/
def arDisj (x y : Arena) : Bool :=
  decide (x.base + x.asize ≤ y.base) || decide (y.base + y.asize ≤ x.base)

/-- All arenas of a list are pairwise disjoint. -/
def disjAll : List Arena → Bool
  | [] => true
  | ar :: ars => ars.all (arDisj ar) && disjAll ars

/-- All blocks of the pool, across arenas. -/
def blocksOf (s : PoolState) : List Block :=
  (s.arenas.map Arena.blocks).flatten

/-- Total number of OS-mapped bytes owned by the pool: the sum of the
actual sizes of its arenas. -/
def totalMappedBytes (s : PoolState) : Nat :=
  s.arenas.foldl (fun t ar => t + ar.asize) 0

/-- The three-fold reading of the tiling invariant for one arena: the
chain is contiguous along its links from base to end, the block ranges
are pairwise disjoint, and their union is exactly the arena range. -/
def arenaInv (ar : Arena) : Prop :=
  tilesb ar.base ar.blocks (ar.base + ar.asize) = true ∧
  List.Pairwise (fun x y => x.data + x.size ≤ y.data ∨ y.data + y.size ≤ x.data) ar.blocks ∧
  ∀ x : Nat, (ar.base ≤ x ∧ x < ar.base + ar.asize) ↔
    ∃ b ∈ ar.blocks, b.data ≤ x ∧ x < b.data + b.size

/-! ### Arithmetic lemmas for 64-bit wrapping -/

theorem W64_pos : 0 < W64 := by norm_num [W64]

theorem w64_lt (n : Nat) : w64 n < W64 := Nat.mod_lt _ W64_pos

theorem w64_eq_of_lt {n : Nat} (h : n < W64) : w64 n = n := Nat.mod_eq_of_lt h

theorem add64_eq_of_lt {a b : Nat} (h : a + b < W64) : add64 a b = a + b :=
  Nat.mod_eq_of_lt h

theorem sub64_eq_of_le {a b : Nat} (hba : b ≤ a) (ha : a < W64) :
    sub64 a b = a - b := by
  have hb : b < W64 := lt_of_le_of_lt hba ha
  unfold sub64
  rw [w64_eq_of_lt hb]
  have h1 : a + (W64 - b) = W64 + (a - b) := by omega
  rw [h1, w64, Nat.add_mod_left, Nat.mod_eq_of_lt (by omega)]

/-! ### The alignment mask computes round-up to a power of two -/

theorem land_high_mask (k x : Nat) (hk : k ≤ 64) (hx : x < 2 ^ 64) :
    x &&& (2 ^ 64 - 2 ^ k) = x / 2 ^ k * 2 ^ k := by
  have h1 : (2 : Nat) ^ k * 2 ^ (64 - k) = 2 ^ 64 := by
    rw [← pow_add]
    congr 1
    omega
  have hmask : (2 : Nat) ^ 64 - 2 ^ k = 2 ^ k * (2 ^ (64 - k) - 1) := by
    rw [Nat.mul_sub, h1, Nat.mul_one]
  apply Nat.eq_of_testBit_eq
  intro i
  rw [Nat.testBit_and, hmask, Nat.testBit_mul_pow_two,
    Nat.mul_comm (x / 2 ^ k) (2 ^ k), Nat.testBit_mul_pow_two,
    Nat.testBit_two_pow_sub_one, ← Nat.shiftRight_eq_div_pow,
    Nat.testBit_shiftRight]
  by_cases hik : k ≤ i
  · by_cases hi64 : i < 64
    · have he : k + (i - k) = i := by omega
      simp [he, hik, ge_iff_le, show i - k < 64 - k by omega]
    · have hf : x.testBit i = false :=
        Nat.testBit_lt_two_pow
          (lt_of_lt_of_le hx (Nat.pow_le_pow_right (by norm_num) (by omega)))
      have he : k + (i - k) = i := by omega
      simp [he, hf]
  · simp [hik, ge_iff_le]

theorem alignedAddr_eq (d k : Nat) (hk : k ≤ 63) (hd : d + 2 ^ k ≤ W64) :
    alignedAddr d (2 ^ k) = (d + 2 ^ k - 1) / 2 ^ k * 2 ^ k := by
  have hp : (0 : Nat) < 2 ^ k := Nat.pos_pow_of_pos _ (by norm_num)
  have hk63 : (2 : Nat) ^ k ≤ 2 ^ 63 := Nat.pow_le_pow_right (by norm_num) hk
  have hW : W64 = 2 ^ 64 := by norm_num [W64]
  have hx : d + 2 ^ k - 1 < 2 ^ 64 := by omega
  have h1 : w64 (d + 2 ^ k - 1) = d + 2 ^ k - 1 := w64_eq_of_lt (by omega)
  have h2 : w64 (2 ^ k - 1) = 2 ^ k - 1 := w64_eq_of_lt (by omega)
  have h3 : not64 (2 ^ k - 1) = 2 ^ 64 - 2 ^ k := by
    unfold not64
    omega
  rw [alignedAddr, h1, h2, h3, land_high_mask k _ (by omega) hx]

theorem roundUp_ge (d a : Nat) (ha : 0 < a) : d ≤ (d + a - 1) / a * a := by
  have h1 := Nat.mod_add_div (d + a - 1) a
  have h2 : (d + a - 1) % a < a := Nat.mod_lt _ ha
  have h3 : (d + a - 1) / a * a = a * ((d + a - 1) / a) := Nat.mul_comm _ _
  omega

theorem roundUp_le (d a : Nat) : (d + a - 1) / a * a ≤ d + a - 1 :=
  Nat.div_mul_le_self _ _

theorem roundUp_mod (d a : Nat) : (d + a - 1) / a * a % a = 0 :=
  Nat.mul_mod_left _ _

/-! ### Facts about the tiling predicate -/

theorem tilesb_le {s e : Nat} {bs : List Block} (h : tilesb s bs e = true) :
    s ≤ e := by
  induction bs generalizing s with
  | nil =>
    simp only [tilesb, beq_iff_eq] at h
    omega
  | cons b bs ih =>
    simp only [tilesb, Bool.and_eq_true] at h
    have := ih h.2
    omega

theorem tilesb_mem_bounds {s e : Nat} {bs : List Block} {b : Block}
    (h : tilesb s bs e = true) (hb : b ∈ bs) :
    s ≤ b.data ∧ b.data + b.size ≤ e := by
  induction bs generalizing s with
  | nil => cases hb
  | cons c bs ih =>
    simp only [tilesb, Bool.and_eq_true, beq_iff_eq] at h
    rcases List.mem_cons.mp hb with rfl | hmem
    · have := tilesb_le h.2
      omega
    · have := ih h.2 hmem
      omega

theorem tilesb_pairwise {s e : Nat} {bs : List Block}
    (h : tilesb s bs e = true) :
    List.Pairwise (fun x y => x.data + x.size ≤ y.data ∨ y.data + y.size ≤ x.data) bs := by
  induction bs generalizing s with
  | nil => exact List.Pairwise.nil
  | cons b bs ih =>
    simp only [tilesb, Bool.and_eq_true, beq_iff_eq] at h
    refine List.Pairwise.cons (fun y hy => ?_) (ih h.2)
    have := tilesb_mem_bounds h.2 hy
    left
    omega

theorem tilesb_cover {s e : Nat} {bs : List Block}
    (h : tilesb s bs e = true) (x : Nat) :
    (s ≤ x ∧ x < e) ↔ ∃ b ∈ bs, b.data ≤ x ∧ x < b.data + b.size := by
  induction bs generalizing s with
  | nil =>
    simp only [tilesb, beq_iff_eq] at h
    subst h
    simp
  | cons b bs ih =>
    simp only [tilesb, Bool.and_eq_true, beq_iff_eq] at h
    obtain ⟨rfl, h2⟩ := h
    constructor
    · rintro ⟨hx1, hx2⟩
      by_cases hlt : x < b.data + b.size
      · exact ⟨b, List.mem_cons_self _ _, le_refl _ |>.trans hx1, hlt⟩
      · obtain ⟨c, hc, hcx⟩ := (ih h2 |>.mp ⟨by omega, hx2⟩)
        exact ⟨c, List.mem_cons_of_mem _ hc, hcx⟩
    · rintro ⟨c, hc, hcx1, hcx2⟩
      rcases List.mem_cons.mp hc with rfl | hmem
      · have := tilesb_le h2
        omega
      · have := tilesb_mem_bounds h2 hmem
        have := tilesb_le h2
        omega

theorem tilesb_unique {s e : Nat} {bs : List Block} {b₁ b₂ : Block} {q : Nat}
    (h : tilesb s bs e = true) (h₁ : b₁ ∈ bs) (h₂ : b₂ ∈ bs)
    (hq₁ : containsPtr b₁ q = true) (hq₂ : containsPtr b₂ q = true) :
    b₁ = b₂ := by
  induction bs generalizing s with
  | nil => cases h₁
  | cons c bs ih =>
    simp only [tilesb, Bool.and_eq_true, beq_iff_eq] at h
    obtain ⟨rfl, h2⟩ := h
    simp only [containsPtr, Bool.and_eq_true, decide_eq_true_eq] at hq₁ hq₂
    rcases List.mem_cons.mp h₁ with rfl | hm₁ <;>
      rcases List.mem_cons.mp h₂ with rfl | hm₂
    · rfl
    · have := tilesb_mem_bounds h2 hm₂
      omega
    · have := tilesb_mem_bounds h2 hm₁
      omega
    · exact ih h2 hm₁ hm₂

/-! ### The chain edits preserve tiling -/

theorem markUsedL_tilesb (bs : List Block) (d : Nat) (v : Bool) (s e : Nat) :
    tilesb s (markUsedL bs d v) e = tilesb s bs e := by
  induction bs generalizing s with
  | nil => rfl
  | cons b bs ih =>
    simp only [markUsedL, List.map_cons] at ih ⊢
    by_cases hb : b.data = d
    · simp [hb, tilesb, ih]
    · simp [hb, tilesb, ih]

theorem splitL_tilesb {bsz : Nat} {bs : List Block} {d u s e : Nat}
    (h : tilesb s bs e = true) : tilesb s (splitL bsz bs d u).1 e = true := by
  induction bs generalizing s with
  | nil => simpa [splitL] using h
  | cons b bs ih =>
    have h' := h
    simp only [tilesb, Bool.and_eq_true, beq_iff_eq] at h
    obtain ⟨rfl, h2⟩ := h
    by_cases hd : b.data = d
    · subst hd
      by_cases h1 : u ≥ b.size
      · simpa [splitL, h1] using h'
      · by_cases hrem : b.size - u < bsz
        · simpa [splitL, h1, hrem] using h'
        · have he : b.data + u + (b.size - u) = b.data + b.size := by omega
          simp [splitL, h1, hrem, tilesb, he, h2]
    · simp only [splitL, hd, if_false, tilesb, Bool.and_eq_true, beq_iff_eq]
      exact ⟨by simp, ih h2⟩

theorem mergeNextL_tilesb {bs : List Block} {d s e : Nat}
    (h : tilesb s bs e = true) : tilesb s (mergeNextL bs d).1 e = true := by
  induction bs generalizing s with
  | nil => simpa [mergeNextL] using h
  | cons b bs ih =>
    have h' := h
    simp only [tilesb, Bool.and_eq_true, beq_iff_eq] at h
    obtain ⟨rfl, h2⟩ := h
    by_cases hd : b.data = d
    · subst hd
      cases bs with
      | nil => simpa [mergeNextL] using h'
      | cons n rest =>
        by_cases hu : n.used
        · simpa [mergeNextL, hu] using h'
        · have h2' := h2
          simp only [tilesb, Bool.and_eq_true, beq_iff_eq] at h2
          obtain ⟨hn, h3⟩ := h2
          have he : b.data + (b.size + n.size) = b.data + b.size + n.size := by omega
          simp [mergeNextL, hu, tilesb, he, h3]
    · simp only [mergeNextL, hd, if_false, tilesb, Bool.and_eq_true, beq_iff_eq]
      exact ⟨by simp, ih h2⟩

theorem mergePrevL_tilesb {bs : List Block} {d s e : Nat}
    (h : tilesb s bs e = true) : tilesb s (mergePrevL bs d).1 e = true := by
  induction bs generalizing s with
  | nil => simpa [mergePrevL] using h
  | cons p bs ih =>
    have h' := h
    simp only [tilesb, Bool.and_eq_true, beq_iff_eq] at h
    obtain ⟨rfl, h2⟩ := h
    cases bs with
    | nil => simpa [mergePrevL] using h'
    | cons b rest =>
      by_cases hd : b.data = d
      · by_cases hu : p.used
        · simpa [mergePrevL, hd, hu] using h'
        · have h2' := h2
          simp only [tilesb, Bool.and_eq_true, beq_iff_eq] at h2
          obtain ⟨hb, h3⟩ := h2
          have he : p.data + (p.size + b.size) = p.data + p.size + b.size := by omega
          simp [mergePrevL, hd, hu, tilesb, he, h3]
      · simp only [mergePrevL, hd, if_false, tilesb, Bool.and_eq_true, beq_iff_eq]
        exact ⟨by simp, ih h2⟩

/-! ### Lifting preservation to arena lists and the whole state -/

theorem splitArenas_tiled {bsz : Nat} {ars : List Arena} {d u : Nat}
    (h : ars.all Arena.tiled = true) :
    (splitArenas bsz ars d u).1.all Arena.tiled = true := by
  induction ars with
  | nil => simp [splitArenas]
  | cons ar ars ih =>
    simp only [List.all_cons, Bool.and_eq_true] at h
    obtain ⟨h1, h2⟩ := h
    rcases hsp : splitL bsz ar.blocks d u with ⟨bs, r⟩
    cases r with
    | some n =>
      have ht := @splitL_tilesb bsz ar.blocks d u ar.base (ar.base + ar.asize) h1
      rw [hsp] at ht
      simp [splitArenas, hsp, List.all_cons, h2, Arena.tiled]
      simpa [Arena.tiled] using ht
    | none =>
      simp [splitArenas, hsp, List.all_cons, h1, ih h2]

theorem mergeArenas_tiled {step : List Block → Nat → List Block × Option Nat}
    {ars : List Arena} {d : Nat}
    (hstep : ∀ (bs : List Block) (s e : Nat),
      tilesb s bs e = true → tilesb s (step bs d).1 e = true)
    (h : ars.all Arena.tiled = true) :
    (mergeArenas step ars d).1.all Arena.tiled = true := by
  induction ars with
  | nil => simp [mergeArenas]
  | cons ar ars ih =>
    simp only [List.all_cons, Bool.and_eq_true] at h
    obtain ⟨h1, h2⟩ := h
    rcases hsp : step ar.blocks d with ⟨bs, r⟩
    cases r with
    | some n =>
      have ht := hstep ar.blocks ar.base (ar.base + ar.asize) h1
      rw [hsp] at ht
      simp [mergeArenas, hsp, List.all_cons, h2, Arena.tiled]
      simpa [Arena.tiled] using ht
    | none =>
      simp [mergeArenas, hsp, List.all_cons, h1, ih h2]

theorem tiledAll_markUsed {s : PoolState} {d : Nat} {v : Bool}
    (h : tiledAll s = true) : tiledAll (s.markUsed d v) = true := by
  simp only [tiledAll, List.all_eq_true] at h ⊢
  intro ar har
  simp only [PoolState.markUsed, List.mem_map] at har
  obtain ⟨ar₀, h₀, rfl⟩ := har
  have := h ar₀ h₀
  simpa [Arena.tiled, markUsedL_tilesb] using this

theorem tiledAll_splitBlock {s : PoolState} {d u : Nat}
    (h : tiledAll s = true) : tiledAll (s.splitBlock d u) = true := by
  have hs := @splitArenas_tiled s.cfg.blockSize s.arenas d u h
  unfold PoolState.splitBlock
  rcases hsp : splitArenas s.cfg.blockSize s.arenas d u with ⟨ars, r⟩
  rw [hsp] at hs
  cases r <;> simpa [tiledAll] using hs

theorem tiledAll_mergeAdjacent {s : PoolState} {d : Nat}
    (h : tiledAll s = true) : tiledAll (s.mergeAdjacentBlocks d) = true := by
  have h₁ := @mergeArenas_tiled mergeNextL s.arenas d
    (fun bs s e ht => mergeNextL_tilesb ht) h
  have h₂ := @mergeArenas_tiled mergePrevL (mergeArenas mergeNextL s.arenas d).1 d
    (fun bs s e ht => mergePrevL_tilesb ht) h₁
  simpa [PoolState.mergeAdjacentBlocks, tiledAll] using h₂

theorem tiledAll_expand {s : PoolState} {n : Nat}
    (h : tiledAll s = true) : tiledAll (s.expand n).2 = true := by
  unfold PoolState.expand
  by_cases he : s.arenas.isEmpty
  · simpa [he] using h
  · simp only [he, if_false]
    by_cases hmax : add64 (s.arenas.foldl (fun t _ => add64 t s.cfg.initialSize) 0) n >
        s.cfg.maxSize
    · simpa [hmax] using h
    · simp only [hmax, if_false]
      cases hsys : s.sys with
      | nil => simpa using h
      | cons b rest =>
        by_cases hb : b = 0
        · simpa [hb] using h
        · simp [hb, tiledAll, List.all_append, Arena.tiled, tilesb,
            show s.arenas.all Arena.tiled = true from h]

theorem tiledAll_stats (s : PoolState) (st : MemoryStats) :
    tiledAll { s with stats := st } = tiledAll s := rfl

theorem tiledAll_allocFinish {s : PoolState} {d size : Nat}
    (h : tiledAll s = true) : tiledAll (allocFinish s d size) = true := by
  simpa [allocFinish, tiledAll] using tiledAll_markUsed (d := d) (v := true) h

theorem tiledAll_allocAt {s : PoolState} {d size a : Nat}
    (h : tiledAll s = true) : tiledAll (s.allocAt d size a).2 = true := by
  unfold PoolState.allocAt
  cases hl : s.lookupBlock d with
  | none => simpa using h
  | some b =>
    by_cases hg : add64 (sub64 (alignedAddr b.data a) b.data) size > b.size
    · simpa [hg] using h
    · simp only [hg, if_false]
      by_cases hs : add64 (sub64 (alignedAddr b.data a) b.data) size < b.size
      · simpa [hs] using tiledAll_allocFinish (tiledAll_splitBlock h)
      · simpa [hs] using tiledAll_allocFinish h

theorem tiledAll_allocate {s : PoolState} {size a : Nat}
    (h : tiledAll s = true) : tiledAll (s.allocate size a).2 = true := by
  unfold PoolState.allocate
  by_cases hz : size = 0
  · simpa [hz] using h
  · simp only [hz, if_false]
    cases hf : s.findFreeBlock size a with
    | some d => exact tiledAll_allocAt h
    | none =>
      have hexp := tiledAll_expand (n := max size s.cfg.blockSize) h
      by_cases hr : (s.expand (max size s.cfg.blockSize)).1
      · simp only [hr, if_true]
        cases hf₂ : (s.expand (max size s.cfg.blockSize)).2.findFreeBlock size a with
        | some d => exact tiledAll_allocAt hexp
        | none => simpa using hexp
      · simpa [hr] using hexp

theorem tiledAll_deallocate {s : PoolState} {q : Nat}
    (h : tiledAll s = true) : tiledAll (s.deallocate q) = true := by
  unfold PoolState.deallocate
  by_cases hz : q = 0
  · simpa [hz] using h
  · simp only [hz, if_false]
    cases hf : s.findContaining q with
    | none => simpa using h
    | some b =>
      by_cases hu : b.used
      · simp only [hu]
        exact tiledAll_mergeAdjacent (by simpa [tiledAll] using tiledAll_markUsed (v := false) (d := b.data) h)
      · simpa [hu] using h

theorem tiledAll_reallocate {s : PoolState} {p n : Nat}
    (h : tiledAll s = true) : tiledAll (s.reallocate p n).2.1 = true := by
  unfold PoolState.reallocate
  by_cases hp : p = 0
  · simpa [hp] using @tiledAll_allocate s n 8 h
  · simp only [hp, if_false]
    by_cases hn : n = 0
    · simpa [hn] using tiledAll_deallocate h
    · simp only [hn, if_false]
      cases hf : s.findContaining p with
      | none => simpa using h
      | some b =>
        by_cases hfit : n ≤ b.size
        · simpa [hfit] using h
        · simp only [hfit, if_false]
          have ha := @tiledAll_allocate s n 8 h
          cases hr : (s.allocate n 8).1 with
          | some np => simpa using tiledAll_deallocate ha
          | none => simpa using ha

theorem tiledAll_runOp {s : PoolState} (op : PoolOp)
    (h : tiledAll s = true) : tiledAll (runOp s op) = true := by
  cases op with
  | alloc size a => exact tiledAll_allocate h
  | dealloc p => exact tiledAll_deallocate h
  | realloc p n => exact tiledAll_reallocate h
  | expandBy n => exact tiledAll_expand h

theorem tiledAll_runOps {s : PoolState} (ops : List PoolOp)
    (h : tiledAll s = true) : tiledAll (runOps s ops) = true := by
  induction ops generalizing s with
  | nil => simpa [runOps] using h
  | cons op ops ih =>
    simpa [runOps] using ih (tiledAll_runOp op h)

theorem tiledAll_mk (cfg : MemoryPoolConfig) (sys : List Nat) :
    tiledAll (mkMemoryPool cfg sys) = true := by
  cases sys with
  | nil => simp [mkMemoryPool, tiledAll]
  | cons b rest =>
    by_cases hb : b = 0
    · simp [mkMemoryPool, hb, tiledAll]
    · simp [mkMemoryPool, hb, tiledAll, Arena.tiled, tilesb]

/-! ### Resolution of pointers to blocks -/

theorem findContainingL_mem {bs : List Block} {q : Nat} {b : Block}
    (h : findContainingL bs q = some b) : b ∈ bs ∧ containsPtr b q = true := by
  induction bs with
  | nil => cases h
  | cons c bs ih =>
    by_cases hc : containsPtr c q = true
    · simp [findContainingL, hc] at h
      subst h
      exact ⟨List.mem_cons_self _ _, hc⟩
    · simp only [findContainingL, if_neg hc] at h
      obtain ⟨hm, hq⟩ := ih h
      exact ⟨List.mem_cons_of_mem _ hm, hq⟩

theorem findContainingL_isSome {bs : List Block} {q : Nat} {b : Block}
    (hb : b ∈ bs) (hq : containsPtr b q = true) :
    (findContainingL bs q).isSome = true := by
  induction bs with
  | nil => cases hb
  | cons c bs ih =>
    by_cases hc : containsPtr c q = true
    · simp [findContainingL, hc]
    · rcases List.mem_cons.mp hb with rfl | hm
      · exact absurd hq hc
      · simpa [findContainingL, hc] using ih hm

theorem findContainingL_none {bs : List Block} {q : Nat}
    (h : ∀ b ∈ bs, containsPtr b q = false) : findContainingL bs q = none := by
  induction bs with
  | nil => rfl
  | cons c bs ih =>
    have hc := h c (List.mem_cons_self _ _)
    simp only [findContainingL, hc, Bool.false_eq_true, if_false]
    exact ih fun b hb => h b (List.mem_cons_of_mem _ hb)

theorem findContainingA_mem {ars : List Arena} {q : Nat} {b : Block}
    (h : findContainingA ars q = some b) :
    ∃ ar ∈ ars, b ∈ ar.blocks ∧ containsPtr b q = true := by
  induction ars with
  | nil => cases h
  | cons ar ars ih =>
    cases hf : findContainingL ar.blocks q with
    | some c =>
      simp only [findContainingA, hf] at h
      obtain rfl : c = b := Option.some.inj h
      obtain ⟨hm, hq⟩ := findContainingL_mem hf
      exact ⟨ar, List.mem_cons_self _ _, hm, hq⟩
    | none =>
      simp only [findContainingA, hf] at h
      obtain ⟨ar₂, hm₂, hb₂, hq₂⟩ := ih h
      exact ⟨ar₂, List.mem_cons_of_mem _ hm₂, hb₂, hq₂⟩

theorem findContainingA_isSome {ars : List Arena} {q : Nat}
    (h : ∃ ar ∈ ars, ∃ b ∈ ar.blocks, containsPtr b q = true) :
    (findContainingA ars q).isSome = true := by
  induction ars with
  | nil => simp at h
  | cons ar ars ih =>
    cases hf : findContainingL ar.blocks q with
    | some c => simp [findContainingA, hf]
    | none =>
      obtain ⟨ar₂, hm₂, b, hb, hq⟩ := h
      rcases List.mem_cons.mp hm₂ with rfl | hm
      · have := findContainingL_isSome hb hq
        rw [hf] at this
        cases this
      · simpa [findContainingA, hf] using ih ⟨ar₂, hm, b, hb, hq⟩

theorem lookupL_mem {bs : List Block} {d : Nat} {b : Block}
    (h : lookupL bs d = some b) : b ∈ bs ∧ b.data = d := by
  induction bs with
  | nil => cases h
  | cons c bs ih =>
    by_cases hc : c.data = d
    · simp [lookupL, hc] at h
      subst h
      exact ⟨List.mem_cons_self _ _, hc⟩
    · simp only [lookupL, if_neg hc] at h
      obtain ⟨hm, hd⟩ := ih h
      exact ⟨List.mem_cons_of_mem _ hm, hd⟩

theorem lookupBlockA_mem {ars : List Arena} {d : Nat} {b : Block}
    (h : lookupBlockA ars d = some b) :
    ∃ ar ∈ ars, b ∈ ar.blocks ∧ b.data = d := by
  induction ars with
  | nil => cases h
  | cons ar ars ih =>
    cases hf : lookupL ar.blocks d with
    | some c =>
      simp only [lookupBlockA, hf] at h
      obtain rfl : c = b := Option.some.inj h
      obtain ⟨hm, hd⟩ := lookupL_mem hf
      exact ⟨ar, List.mem_cons_self _ _, hm, hd⟩
    | none =>
      simp only [lookupBlockA, hf] at h
      obtain ⟨ar₂, hm₂, hb₂, hd₂⟩ := ih h
      exact ⟨ar₂, List.mem_cons_of_mem _ hm₂, hb₂, hd₂⟩

/-- Under the tiling invariant and pairwise-disjoint arenas, scanning
blockMap finds exactly the block whose byte range holds the pointer:
the containing block is unique. -/
theorem findContainingA_unique {ars : List Arena} {ar : Arena} {B : Block} {q : Nat}
    (ht : ars.all Arena.tiled = true) (hd : disjAll ars = true)
    (har : ar ∈ ars) (hB : B ∈ ar.blocks) (hq : containsPtr B q = true) :
    findContainingA ars q = some B := by
  induction ars with
  | nil => cases har
  | cons ar₀ ars ih =>
    simp only [List.all_cons, Bool.and_eq_true] at ht
    simp only [disjAll, Bool.and_eq_true] at hd
    rcases List.mem_cons.mp har with rfl | hm
    · have hsome := findContainingL_isSome hB hq
      cases hf : findContainingL ar.blocks q with
      | none => rw [hf] at hsome; cases hsome
      | some c =>
        obtain ⟨hcm, hcq⟩ := findContainingL_mem hf
        have : c = B := tilesb_unique ht.1 hcm hB hcq hq
        simp [findContainingA, hf, this]
    · have hnone : findContainingL ar₀.blocks q = none := by
        apply findContainingL_none
        intro b hb
        have hb0 := tilesb_mem_bounds ht.1 hb
        have harT : Arena.tiled ar = true := by
          have := List.all_eq_true.mp ht.2 ar hm
          exact this
        have hB0 := tilesb_mem_bounds harT hB
        have hdisj : arDisj ar₀ ar = true := List.all_eq_true.mp hd.1 ar hm
        simp only [arDisj, Bool.or_eq_true, decide_eq_true_eq] at hdisj
        simp only [containsPtr, Bool.and_eq_true, decide_eq_true_eq] at hq
        simp only [containsPtr, Bool.and_eq_false_iff, decide_eq_false_iff_not]
        unfold Arena.tiled at harT ht
        omega
      simp only [findContainingA, hnone]
      exact ih ht.2 hd.2 hm

/-! ### Allocation does not change the arena frames -/

theorem splitArenas_frame (bsz : Nat) (ars : List Arena) (d u : Nat) :
    (splitArenas bsz ars d u).1.map (fun ar => (ar.base, ar.asize)) =
      ars.map fun ar => (ar.base, ar.asize) := by
  induction ars with
  | nil => rfl
  | cons ar ars ih =>
    rcases hsp : splitL bsz ar.blocks d u with ⟨bs, r⟩
    cases r with
    | some n => simp [splitArenas, hsp]
    | none => simp [splitArenas, hsp, ih]

theorem splitBlock_frame (s : PoolState) (d u : Nat) :
    (s.splitBlock d u).arenas.map (fun ar => (ar.base, ar.asize)) =
      s.arenas.map fun ar => (ar.base, ar.asize) := by
  unfold PoolState.splitBlock
  rcases hsp : splitArenas s.cfg.blockSize s.arenas d u with ⟨ars, r⟩
  have := splitArenas_frame s.cfg.blockSize s.arenas d u
  rw [hsp] at this
  cases r <;> simpa using this

theorem markUsed_frame (s : PoolState) (d : Nat) (v : Bool) :
    (s.markUsed d v).arenas.map (fun ar => (ar.base, ar.asize)) =
      s.arenas.map fun ar => (ar.base, ar.asize) := by
  simp [PoolState.markUsed, List.map_map]

theorem allocFinish_frame (s : PoolState) (d size : Nat) :
    (allocFinish s d size).arenas.map (fun ar => (ar.base, ar.asize)) =
      s.arenas.map fun ar => (ar.base, ar.asize) := by
  simpa [allocFinish] using markUsed_frame s d true

theorem mem_arenas_of_frame {s s' : PoolState} {ar : Arena}
    (hfr : s'.arenas.map (fun x => (x.base, x.asize)) =
      s.arenas.map fun x => (x.base, x.asize))
    (har : ar ∈ s.arenas) :
    ∃ ar' ∈ s'.arenas, ar'.base = ar.base ∧ ar'.asize = ar.asize := by
  have h1 : (ar.base, ar.asize) ∈ s.arenas.map fun x => (x.base, x.asize) :=
    List.mem_map_of_mem _ har
  rw [← hfr] at h1
  obtain ⟨ar', hm, he⟩ := List.mem_map.mp h1
  refine ⟨ar', hm, ?_, ?_⟩
  · exact congrArg Prod.fst he
  · exact congrArg Prod.snd he

/-! ### Specification of a successful allocation -/

theorem boundedArenas_mem {s : PoolState} {ar : Arena}
    (hb : boundedArenas s = true) (har : ar ∈ s.arenas) :
    ar.base + ar.asize ≤ 2 ^ 63 := by
  have := List.all_eq_true.mp hb ar har
  simpa using this

theorem boundedArenas_expand {s : PoolState} {size : Nat}
    (hb : boundedArenas s = true) (hs : sysOK s size = true) :
    boundedArenas (s.expand (max size s.cfg.blockSize)).2 = true := by
  unfold PoolState.expand
  by_cases he : s.arenas.isEmpty
  · simpa [he] using hb
  · simp only [he, if_false]
    by_cases hmax : add64 (s.arenas.foldl (fun t _ => add64 t s.cfg.initialSize) 0)
        (max size s.cfg.blockSize) > s.cfg.maxSize
    · simpa [hmax] using hb
    · simp only [hmax, if_false]
      cases hsys : s.sys with
      | nil => simpa using hb
      | cons b rest =>
        by_cases hb0 : b = 0
        · simpa [hb0] using hb
        · simp only [hb0, if_false]
          have hbd : b + max size s.cfg.blockSize ≤ 2 ^ 63 := by
            have := List.all_eq_true.mp hs b (by rw [hsys]; exact List.mem_cons_self _ _)
            simp only [Bool.or_eq_true, beq_iff_eq, decide_eq_true_eq] at this
            rcases this with h0 | hle
            · exact absurd h0 hb0
            · exact hle
          simp [boundedArenas, List.all_append]
          refine ⟨fun x hx => ?_, ?_⟩
          · exact boundedArenas_mem hb hx
          · exact hbd

theorem allocAt_spec {s : PoolState} {d size k p : Nat} {s' : PoolState}
    (ht : tiledAll s = true) (hb : boundedArenas s = true)
    (hsz : 0 < size) (hk : k ≤ 63) (hov : size + 2 ^ k ≤ W64)
    (hres : s.allocAt d size (2 ^ k) = (some p, s')) :
    p % 2 ^ k = 0 ∧
    (∃ ar ∈ s'.arenas, ar.base ≤ p ∧ p < ar.base + ar.asize) ∧
    s'.owns p = true := by
  have hW : W64 = 2 ^ 64 := by norm_num [W64]
  have hkpos : (0 : Nat) < 2 ^ k := Nat.pos_pow_of_pos _ (by norm_num)
  have hk63 : (2 : Nat) ^ k ≤ 2 ^ 63 := Nat.pow_le_pow_right (by norm_num) hk
  unfold PoolState.allocAt at hres
  cases hl : s.lookupBlock d with
  | none => rw [hl] at hres; simp at hres
  | some b =>
    rw [hl] at hres
    simp only [] at hres
    obtain ⟨ar, har, hbm, hbd⟩ := lookupBlockA_mem hl
    have harT : tilesb ar.base ar.blocks (ar.base + ar.asize) = true :=
      List.all_eq_true.mp ht ar har
    have hbnd := tilesb_mem_bounds harT hbm
    have hbb : ar.base + ar.asize ≤ 2 ^ 63 := boundedArenas_mem hb har
    have hdW : b.data + 2 ^ k ≤ W64 := by omega
    have hao : alignedAddr b.data (2 ^ k) = (b.data + 2 ^ k - 1) / 2 ^ k * 2 ^ k :=
      alignedAddr_eq _ _ hk hdW
    have hge : b.data ≤ (b.data + 2 ^ k - 1) / 2 ^ k * 2 ^ k := roundUp_ge _ _ hkpos
    have hle : (b.data + 2 ^ k - 1) / 2 ^ k * 2 ^ k ≤ b.data + 2 ^ k - 1 :=
      roundUp_le _ _
    have hvW : (b.data + 2 ^ k - 1) / 2 ^ k * 2 ^ k < W64 := by omega
    have hpad : sub64 (alignedAddr b.data (2 ^ k)) b.data =
        (b.data + 2 ^ k - 1) / 2 ^ k * 2 ^ k - b.data := by
      rw [hao]
      exact sub64_eq_of_le hge hvW
    have hps : add64 (sub64 (alignedAddr b.data (2 ^ k)) b.data) size =
        ((b.data + 2 ^ k - 1) / 2 ^ k * 2 ^ k - b.data) + size := by
      rw [hpad]
      exact add64_eq_of_lt (by omega)
    by_cases hg : add64 (sub64 (alignedAddr b.data (2 ^ k)) b.data) size > b.size
    · rw [if_pos hg] at hres
      simp at hres
    · rw [if_neg hg] at hres
      have hfit : (b.data + 2 ^ k - 1) / 2 ^ k * 2 ^ k - b.data + size ≤ b.size := by
        rw [hps] at hg
        omega
      have hmain : alignedAddr b.data (2 ^ k) = p ∧
          s'.arenas.map (fun x => (x.base, x.asize)) =
            s.arenas.map (fun x => (x.base, x.asize)) ∧
          tiledAll s' = true := by
        by_cases hsp : add64 (sub64 (alignedAddr b.data (2 ^ k)) b.data) size < b.size
        · rw [if_pos hsp] at hres
          injection hres with h1 h2
          injection h1 with h1
          refine ⟨h1, ?_, ?_⟩
          · rw [← h2, allocFinish_frame, splitBlock_frame]
          · rw [← h2]
            exact tiledAll_allocFinish (tiledAll_splitBlock ht)
        · rw [if_neg hsp] at hres
          injection hres with h1 h2
          injection h1 with h1
          refine ⟨h1, ?_, ?_⟩
          · rw [← h2, allocFinish_frame]
          · rw [← h2]
            exact tiledAll_allocFinish ht
      obtain ⟨hp, hfr, ht'⟩ := hmain
      have hpv : p = (b.data + 2 ^ k - 1) / 2 ^ k * 2 ^ k := by
        rw [← hp, hao]
      have hvlt : (b.data + 2 ^ k - 1) / 2 ^ k * 2 ^ k < b.data + b.size := by omega
      obtain ⟨ar', hm', hbase', hsize'⟩ := mem_arenas_of_frame hfr har
      refine ⟨?_, ⟨ar', hm', ?_, ?_⟩, ?_⟩
      · rw [hpv]
        exact roundUp_mod _ _
      · omega
      · omega
      · have harT' : tilesb ar'.base ar'.blocks (ar'.base + ar'.asize) = true :=
          List.all_eq_true.mp ht' ar' hm'
        obtain ⟨blk, hblk, hbp⟩ := (tilesb_cover harT' p).mp (by constructor <;> omega)
        have hcp : containsPtr blk p = true := by
          simp only [containsPtr, Bool.and_eq_true, decide_eq_true_eq]
          exact hbp
        exact findContainingA_isSome ⟨ar', hm', blk, hblk, hcp⟩

/-! ### Claim theorems -/

/-- C1 (counterexample).  The claim as stated fails on the code: size_t
overflow in the padding-plus-size comparison lets an astronomically
large request succeed.  Concretely, with a pool of one 7-byte arena at
base 4096 and blockSize 1, after allocate(1, 1) a free block at address
4097 of size 6 remains; allocate(2^64 - 2, 8) then computes padding 7
and padding + size wraps to 5, which fits, so the call returns the
non-null aligned pointer 4104 — an address outside every arena of the
pool, for which owns returns false. -/
theorem C1_overflow_counterexample :
    (0 : Nat) < W64 - 2 ∧ (8 : Nat) = 2 ^ 3 ∧
    ((((mkMemoryPool ⟨7, 1000, 1, 16, false, "P"⟩ [4096]).allocate 1 1).2).allocate
        (W64 - 2) 8).1 = some 4104 ∧
    ((((mkMemoryPool ⟨7, 1000, 1, 16, false, "P"⟩ [4096]).allocate 1 1).2).allocate
        (W64 - 2) 8).2.owns 4104 = false ∧
    (∀ ar ∈ ((((mkMemoryPool ⟨7, 1000, 1, 16, false, "P"⟩ [4096]).allocate 1 1).2).allocate
        (W64 - 2) 8).2.arenas, ¬(ar.base ≤ 4104 ∧ 4104 < ar.base + ar.asize)) := by
  refine ⟨by decide, by decide, ?_, ?_, ?_⟩ <;> decide

/-- C1 (amended).  For every tiled, bounded pool state and every call
allocate(size, alignment) with size > 0, alignment a power of two, and
size + alignment at most 2^64 (so the padding + size arithmetic cannot
wrap), a successful allocation returns a pointer that is aligned, lies
inside one of the arenas of the pool, and is owned by the pool. -/
theorem C1_allocate_aligned_in_arena_owned {s : PoolState} {size a k p : Nat}
    {s' : PoolState}
    (ht : tiledAll s = true) (hb : boundedArenas s = true)
    (hsys : sysOK s size = true) (hk : k ≤ 63) (hak : a = 2 ^ k)
    (hov : size + a ≤ W64)
    (hres : s.allocate size a = (some p, s')) :
    p % a = 0 ∧ (∃ ar ∈ s'.arenas, ar.base ≤ p ∧ p < ar.base + ar.asize) ∧
    s'.owns p = true := by
  subst hak
  unfold PoolState.allocate at hres
  by_cases hz : size = 0
  · rw [if_pos hz] at hres
    simp at hres
  · rw [if_neg hz] at hres
    have hsz : 0 < size := Nat.pos_of_ne_zero hz
    cases hf : s.findFreeBlock size (2 ^ k) with
    | some d =>
      rw [hf] at hres
      simp only [] at hres
      exact allocAt_spec ht hb hsz hk hov hres
    | none =>
      rw [hf] at hres
      simp only [] at hres
      by_cases hr : (s.expand (max size s.cfg.blockSize)).1
      · rw [if_pos hr] at hres
        have ht₂ := tiledAll_expand (n := max size s.cfg.blockSize) ht
        have hb₂ := boundedArenas_expand hb hsys
        cases hf₂ : (s.expand (max size s.cfg.blockSize)).2.findFreeBlock size (2 ^ k) with
        | some d =>
          rw [hf₂] at hres
          simp only [] at hres
          exact allocAt_spec ht₂ hb₂ hsz hk hov hres
        | none =>
          rw [hf₂] at hres
          simp at hres
      · rw [if_neg hr] at hres
        simp at hres

/-- C1 (witness).  The amended theorem applied at a concrete pool:
allocate(10, 8) on a fresh 64-byte pool returns 4096, which is 8-byte
aligned, inside the arena, and owned. -/
theorem C1_allocate_aligned_in_arena_owned_witness :
    (4096 : Nat) % 8 = 0 ∧
    (∃ ar ∈ ((mkMemoryPool ⟨64, 1024, 16, 8, false, "P"⟩ [4096]).allocate 10 8).2.arenas,
      ar.base ≤ 4096 ∧ 4096 < ar.base + ar.asize) ∧
    ((mkMemoryPool ⟨64, 1024, 16, 8, false, "P"⟩ [4096]).allocate 10 8).2.owns 4096 = true :=
  C1_allocate_aligned_in_arena_owned (k := 3)
    (by decide) (by decide) (by decide) (by decide) (by decide) (by decide)
    (Prod.ext (by decide) rfl)

/-- C2.  Tiling invariant: in every pool state reachable from
construction by any sequence of allocate, deallocate, reallocate and
expand calls, the blocks of each arena are contiguous along their links
(each block ends where the next begins, starting at the arena base and
ending at its end), pairwise non-overlapping, and their byte ranges
union to exactly the arena; moreover splitBlock and
mergeAdjacentBlocks preserve the tiling invariant on any tiled state. -/
theorem C2_blocks_tile_arenas :
    (∀ (cfg : MemoryPoolConfig) (sys : List Nat) (ops : List PoolOp),
      ∀ ar ∈ (runOps (mkMemoryPool cfg sys) ops).arenas, arenaInv ar) ∧
    (∀ (s : PoolState) (d u : Nat), tiledAll s = true →
      tiledAll (s.splitBlock d u) = true) ∧
    (∀ (s : PoolState) (d : Nat), tiledAll s = true →
      tiledAll (s.mergeAdjacentBlocks d) = true) := by
  refine ⟨?_, ?_, ?_⟩
  · intro cfg sys ops ar har
    have ht : tiledAll (runOps (mkMemoryPool cfg sys) ops) = true :=
      tiledAll_runOps _ (tiledAll_mk cfg sys)
    have harT : tilesb ar.base ar.blocks (ar.base + ar.asize) = true :=
      List.all_eq_true.mp ht ar har
    exact ⟨harT, tilesb_pairwise harT, fun x => tilesb_cover harT x⟩
  · intro s d u h
    exact tiledAll_splitBlock h
  · intro s d h
    exact tiledAll_mergeAdjacent h

/-- C2 (witness).  The invariant instantiated at a concrete run: one
allocation on a fresh 64-byte pool leaves a single arena whose one used
block tiles it exactly. -/
theorem C2_blocks_tile_arenas_witness :
    arenaInv ⟨4096, 64, [⟨4096, 64, true⟩]⟩ :=
  C2_blocks_tile_arenas.1 ⟨64, 1024, 64, 8, false, "P"⟩ [4096]
    [PoolOp.alloc 16 8] ⟨4096, 64, [⟨4096, 64, true⟩]⟩ (by decide)

/-- C3 (evaluation at the failing input).  allocate adds the requested
size to currentUsage but deallocate subtracts the size of the containing block, which here is the whole unsplit 1024-byte block: after a single
allocate(100, 8) and its matching deallocate, currentUsage is not 0 (the
sum over zero live allocations) but wraps to 2^64 - 924, while the
allocation and deallocation counters behave as the claim states. -/
theorem C3_currentUsage_underflow :
    ((mkMemoryPool ⟨1024, 4096, 4096, 16, false, "P"⟩ [4096]).allocate 100 8).1 =
      some 4096 ∧
    (((mkMemoryPool ⟨1024, 4096, 4096, 16, false, "P"⟩ [4096]).allocate
        100 8).2.deallocate 4096).stats.currentUsage = W64 - 924 ∧
    W64 - 924 ≠ 0 ∧
    (((mkMemoryPool ⟨1024, 4096, 4096, 16, false, "P"⟩ [4096]).allocate
        100 8).2.deallocate 4096).stats.allocationCount = 1 ∧
    (((mkMemoryPool ⟨1024, 4096, 4096, 16, false, "P"⟩ [4096]).allocate
        100 8).2.deallocate 4096).stats.deallocationCount = 1 := by
  refine ⟨?_, ?_, ?_, ?_, ?_⟩ <;> decide

/-- C4 (evaluation at the failing input).  expand sums config.initialSize
once per existing arena instead of the arenas' actual sizes, so the
maxSize ceiling is not enforced: with initialSize 16, maxSize 100 and
blockSize 16, two allocate(64, 1) calls each map a fresh 64-byte arena
and the second one still succeeds, leaving 16 + 64 + 64 = 144 mapped
bytes, strictly above maxSize = 100, where the claim requires expand to
refuse and allocate to return null. -/
theorem C4_maxSize_not_enforced :
    ((((mkMemoryPool ⟨16, 100, 16, 8, false, "P"⟩ [4096, 8192, 16384]).allocate
        64 1).2).allocate 64 1).1 = some 16384 ∧
    totalMappedBytes ((((mkMemoryPool ⟨16, 100, 16, 8, false, "P"⟩
        [4096, 8192, 16384]).allocate 64 1).2).allocate 64 1).2 = 144 ∧
    (mkMemoryPool ⟨16, 100, 16, 8, false, "P"⟩ [4096, 8192, 16384]).cfg.maxSize =
      100 ∧ (144 : Nat) > 100 := by
  refine ⟨?_, ?_, ?_, ?_⟩ <;> decide

/-- C7.  A stack allocator marker at offset off, valid for the arena:
rewinding to it sets the current offset to off when off is at or below
the current offset, and leaves the state unchanged when the marker is
ahead of the current offset; in particular the concrete scenario marker
at offset 0, allocate(1024, 16), allocate(2048, 32), freeToMarker
yields current offset 0. -/
theorem C7_freeToMarker_rewind (st : StackState) (off : Nat)
    (hoff : off ≤ st.totalSize) :
    (off ≤ st.currentOffset →
      (st.freeToMarker (st.memory + off)).currentOffset = off) ∧
    (st.currentOffset < off → st.freeToMarker (st.memory + off) = st) ∧
    ((((⟨4096, 8192, 0, {}⟩ : StackState).allocate 1024 16).2.allocate
        2048 32).2.freeToMarker
      (StackState.getMarker ⟨4096, 8192, 0, {}⟩)).getCurrentOffset = 0 := by
  have hc : ¬(st.memory + off < st.memory ∨
      st.memory + off > st.memory + st.totalSize) := by
    push_neg
    omega
  have he : st.memory + off - st.memory = off := by omega
  refine ⟨?_, ?_, by decide⟩
  · intro h
    unfold StackState.freeToMarker
    rw [if_neg hc]
    simp only [he, if_pos h]
  · intro h
    unfold StackState.freeToMarker
    rw [if_neg hc]
    simp only [he, if_neg (by omega : ¬ off ≤ st.currentOffset)]

/-- C7 (witness).  The theorem applied at the state reached by the two
scenario allocations (offset 3072): rewinding to the base marker yields
offset 0; and at a 1024-offset state a marker at offset 4904 (address
9000) is ahead of the current offset and leaves the state unchanged. -/
theorem C7_freeToMarker_rewind_witness :
    (StackState.freeToMarker
      ⟨4096, 8192, 3072, ⟨3072, 0, 3072, 3072, 2, 0, 0⟩⟩ 4096).currentOffset = 0 ∧
    StackState.freeToMarker
      ⟨4096, 8192, 1024, ⟨1024, 0, 1024, 1024, 1, 0, 0⟩⟩ 9000 =
      ⟨4096, 8192, 1024, ⟨1024, 0, 1024, 1024, 1, 0, 0⟩⟩ :=
  ⟨(C7_freeToMarker_rewind ⟨4096, 8192, 3072, ⟨3072, 0, 3072, 3072, 2, 0, 0⟩⟩ 0
      (by decide)).1 (by decide),
   (C7_freeToMarker_rewind ⟨4096, 8192, 1024, ⟨1024, 0, 1024, 1024, 1, 0, 0⟩⟩ 4904
      (by decide)).2.1 (by decide)⟩

/-- C8.  Misuse of deallocation is absorbed silently with no state
change: deallocating a pointer contained in no block, or one whose
containing block is already free (a double free), returns the state
unchanged — no block, free list, lookup table or stats counter moves. -/
theorem C8_deallocate_misuse_noop (s : PoolState) (q : Nat) :
    (s.findContaining q = none → s.deallocate q = s) ∧
    (∀ b : Block, s.findContaining q = some b → b.used = false →
      s.deallocate q = s) := by
  constructor
  · intro h
    by_cases hz : q = 0
    · simp [PoolState.deallocate, hz]
    · simp [PoolState.deallocate, hz, h]
  · intro b hb hu
    by_cases hz : q = 0
    · simp [PoolState.deallocate, hz]
    · simp [PoolState.deallocate, hz, hb, hu]

/-- C8 (witness).  The theorem applied at concrete states: deallocating
address 5, which no block contains, is a no-op on a fresh pool; and
deallocating 4096 a second time after allocate(16, 8) and a first
deallocate — a double free — is a no-op on the resulting state. -/
theorem C8_deallocate_misuse_noop_witness :
    (mkMemoryPool ⟨64, 1024, 64, 8, false, "P"⟩ [4096]).deallocate 5 =
      mkMemoryPool ⟨64, 1024, 64, 8, false, "P"⟩ [4096] ∧
    (((mkMemoryPool ⟨64, 1024, 64, 8, false, "P"⟩ [4096]).allocate
        16 8).2.deallocate 4096).deallocate 4096 =
      ((mkMemoryPool ⟨64, 1024, 64, 8, false, "P"⟩ [4096]).allocate
        16 8).2.deallocate 4096 :=
  ⟨(C8_deallocate_misuse_noop _ 5).1 (by decide),
   (C8_deallocate_misuse_noop _ 4096).2 ⟨4096, 64, false⟩ (by decide) (by decide)⟩

/-- The non-trivial branch of deallocate written out: when the pointer
resolves to a used block, the block is marked free, stats are updated
with the block size, and adjacent free blocks are merged. -/
theorem deallocate_used_eq {s : PoolState} {q : Nat} {b : Block}
    (hq : q ≠ 0) (hf : s.findContaining q = some b) (hu : b.used = true) :
    s.deallocate q =
      ({ s.markUsed b.data false with stats :=
          { s.stats with
            totalFreed := add64 s.stats.totalFreed b.size
            currentUsage := sub64 s.stats.currentUsage b.size
            deallocationCount := add64 s.stats.deallocationCount 1 } }).mergeAdjacentBlocks
        b.data := by
  simp [PoolState.deallocate, hq, hf, hu]

/-- Coalescing edits only the arenas and the free list, never stats. -/
theorem mergeAdjacent_stats (s : PoolState) (d : Nat) :
    (s.mergeAdjacentBlocks d).stats = s.stats := by
  simp [PoolState.mergeAdjacentBlocks]

/-- C5.  Ownership on deallocation is decided by address-range
containment: for a used block B and any pointer q with
B.data ≤ q < B.data + B.size, deallocate(q) resolves to block B (not
only to the exact address allocate returned), produces the identical
state for every pointer inside the range of B, and updates the stats
with the size of B: deallocationCount rises by one and currentUsage falls by
B.size. -/
theorem C5_deallocate_by_containment {s : PoolState} {B : Block} {q q₂ : Nat}
    (ht : tiledAll s = true) (hd : disjAll s.arenas = true)
    (hB : B ∈ blocksOf s) (hu : B.used = true) (h0 : 0 < B.data)
    (hq1 : B.data ≤ q) (hq2 : q < B.data + B.size)
    (hr1 : B.data ≤ q₂) (hr2 : q₂ < B.data + B.size) :
    s.findContaining q = some B ∧
    s.deallocate q = s.deallocate q₂ ∧
    (s.deallocate q).stats.deallocationCount =
      add64 s.stats.deallocationCount 1 ∧
    (s.deallocate q).stats.currentUsage = sub64 s.stats.currentUsage B.size := by
  obtain ⟨ar, har, hBl⟩ : ∃ ar ∈ s.arenas, B ∈ ar.blocks := by
    simpa [blocksOf] using hB
  have hcq : containsPtr B q = true := by
    simp only [containsPtr, Bool.and_eq_true, decide_eq_true_eq]
    omega
  have hcq₂ : containsPtr B q₂ = true := by
    simp only [containsPtr, Bool.and_eq_true, decide_eq_true_eq]
    omega
  have hfq : s.findContaining q = some B :=
    findContainingA_unique ht hd har hBl hcq
  have hfq₂ : s.findContaining q₂ = some B :=
    findContainingA_unique ht hd har hBl hcq₂
  have hq0 : q ≠ 0 := by omega
  have hq₂0 : q₂ ≠ 0 := by omega
  refine ⟨hfq, ?_, ?_, ?_⟩
  · rw [deallocate_used_eq hq0 hfq hu, deallocate_used_eq hq₂0 hfq₂ hu]
  · rw [deallocate_used_eq hq0 hfq hu, mergeAdjacent_stats]
  · rw [deallocate_used_eq hq0 hfq hu, mergeAdjacent_stats]

/-- C5 (witness).  On a pool holding one used 1024-byte block at 4096,
deallocating the interior pointer 4100 resolves to that block, acts
exactly like deallocating the returned pointer 4096, and moves the
stats by the block size. -/
theorem C5_deallocate_by_containment_witness :
    ((mkMemoryPool ⟨1024, 4096, 4096, 16, false, "P"⟩ [4096]).allocate
        100 8).2.findContaining 4100 = some ⟨4096, 1024, true⟩ ∧
    (((mkMemoryPool ⟨1024, 4096, 4096, 16, false, "P"⟩ [4096]).allocate
        100 8).2.deallocate 4100 =
      ((mkMemoryPool ⟨1024, 4096, 4096, 16, false, "P"⟩ [4096]).allocate
        100 8).2.deallocate 4096) ∧
    ((((mkMemoryPool ⟨1024, 4096, 4096, 16, false, "P"⟩ [4096]).allocate
        100 8).2.deallocate 4100).stats.deallocationCount =
      add64 (((mkMemoryPool ⟨1024, 4096, 4096, 16, false, "P"⟩ [4096]).allocate
        100 8).2.stats.deallocationCount) 1) ∧
    ((((mkMemoryPool ⟨1024, 4096, 4096, 16, false, "P"⟩ [4096]).allocate
        100 8).2.deallocate 4100).stats.currentUsage =
      sub64 (((mkMemoryPool ⟨1024, 4096, 4096, 16, false, "P"⟩ [4096]).allocate
        100 8).2.stats.currentUsage) 1024) :=
  C5_deallocate_by_containment (B := ⟨4096, 1024, true⟩)
    (by decide) (by decide) (by decide) (by decide) (by decide)
    (by decide) (by decide) (by decide) (by decide)

/-- C6.  reallocate(ptr, newSize) with ptr contained in block b and
newSize > 0: when newSize fits in b the very same pointer is returned
with the state untouched and no bytes copied; otherwise, when the inner
allocation yields a fresh pointer, that pointer is returned, exactly
b.size bytes are copied from ptr to it, and the old pointer is
deallocated in the post-allocation state. -/
theorem C6_reallocate_semantics {s : PoolState} {p n : Nat} {b : Block}
    (hp : p ≠ 0) (hf : s.findContaining p = some b) (hn : 0 < n) :
    (n ≤ b.size → s.reallocate p n = (some p, s, none)) ∧
    (b.size < n → ∀ np : Nat, (s.allocate n 8).1 = some np →
      s.reallocate p n =
        (some np, (s.allocate n 8).2.deallocate p, some ⟨p, np, b.size⟩)) := by
  have hn0 : n ≠ 0 := by omega
  constructor
  · intro hfit
    simp [PoolState.reallocate, hp, hn0, hf, hfit]
  · intro hbig np hnp
    have hnot : ¬ n ≤ b.size := by omega
    simp [PoolState.reallocate, hp, hn0, hf, hnot, hnp]

/-- C6 (witness).  On a pool holding one used 1024-byte block at 4096
(second arena grant 65536 pending): reallocate(4096, 50) returns the
same pointer with no copy; reallocate(4096, 2000) returns the fresh
pointer 65536, copies 1024 bytes from 4096 to it, and deallocates 4096
in the post-allocation state. -/
theorem C6_reallocate_semantics_witness :
    ((mkMemoryPool ⟨1024, 100000, 4096, 16, false, "P"⟩
        [4096, 65536]).allocate 100 8).2.reallocate 4096 50 =
      (some 4096,
       ((mkMemoryPool ⟨1024, 100000, 4096, 16, false, "P"⟩
          [4096, 65536]).allocate 100 8).2, none) ∧
    ((mkMemoryPool ⟨1024, 100000, 4096, 16, false, "P"⟩
        [4096, 65536]).allocate 100 8).2.reallocate 4096 2000 =
      (some 65536,
       (((mkMemoryPool ⟨1024, 100000, 4096, 16, false, "P"⟩
          [4096, 65536]).allocate 100 8).2.allocate 2000 8).2.deallocate 4096,
       some ⟨4096, 65536, 1024⟩) :=
  ⟨(C6_reallocate_semantics (b := ⟨4096, 1024, true⟩)
      (by decide) (by decide) (by decide)).1 (by decide),
   (C6_reallocate_semantics (b := ⟨4096, 1024, true⟩)
      (by decide) (by decide) (by decide)).2 (by decide) 65536 (by decide)⟩

/-- A key absent from the table has no records. -/
theorem countKey_eq_zero {l : List (Nat × AllocInfo)} {k : Nat}
    (h : k ∉ l.map Prod.fst) : countKey l k = 0 := by
  induction l with
  | nil => rfl
  | cons e rest ih =>
    simp only [List.map_cons, List.mem_cons] at h
    push_neg at h
    have he : (e.1 == k) = false := by
      simp only [beq_eq_false_iff_ne, ne_eq]
      exact fun hc => h.1 hc.symm
    simp only [countKey, List.filter_cons, he] at ih ⊢
    exact ih h.2

/-- Keys after an insert-or-assign come from the inserted key or the
old table. -/
theorem mem_keys_insertA {l : List (Nat × AllocInfo)} {k x : Nat} {v : AllocInfo}
    (h : x ∈ (insertA l k v).map Prod.fst) : x = k ∨ x ∈ l.map Prod.fst := by
  induction l with
  | nil =>
    simp [insertA] at h
    exact Or.inl h
  | cons e rest ih =>
    by_cases hk : e.1 = k
    · simp only [insertA, hk, if_true, List.map_cons, List.mem_cons] at h
      rcases h with h | h
      · exact Or.inl h
      · exact Or.inr (by simp [h])
    · simp only [insertA, hk, if_false, List.map_cons, List.mem_cons] at h
      rcases h with h | h
      · exact Or.inr (by simp [h])
      · rcases ih h with h | h
        · exact Or.inl h
        · exact Or.inr (by simp [h])

/-- Insert-or-assign keeps the keys of the table pairwise distinct. -/
theorem keys_nodup_insertA {l : List (Nat × AllocInfo)} {k : Nat} {v : AllocInfo}
    (h : (l.map Prod.fst).Nodup) : ((insertA l k v).map Prod.fst).Nodup := by
  induction l with
  | nil => simp [insertA]
  | cons e rest ih =>
    simp only [List.map_cons, List.nodup_cons] at h
    by_cases hk : e.1 = k
    · simp only [insertA, hk, if_true, List.map_cons, List.nodup_cons]
      exact ⟨by simpa [hk] using h.1, h.2⟩
    · simp only [insertA, hk, if_false, List.map_cons, List.nodup_cons]
      refine ⟨fun hc => ?_, ih h.2⟩
      rcases mem_keys_insertA hc with hc | hc
      · exact hk hc
      · exact h.1 hc

/-- After insert-or-assign into a table with pairwise distinct keys, the
inserted key has exactly one record. -/
theorem countKey_insertA {l : List (Nat × AllocInfo)} {k : Nat} {v : AllocInfo}
    (h : (l.map Prod.fst).Nodup) : countKey (insertA l k v) k = 1 := by
  induction l with
  | nil => simp [insertA, countKey]
  | cons e rest ih =>
    simp only [List.map_cons, List.nodup_cons] at h
    by_cases hk : e.1 = k
    · have hz : countKey rest k = 0 := countKey_eq_zero (by simpa [hk] using h.1)
      simp only [insertA, hk, if_true, countKey, List.filter_cons, beq_self_eq_true,
        if_true, List.length_cons] at hz ⊢
      omega
    · have he : (e.1 == k) = false := by
        simp only [beq_eq_false_iff_ne, ne_eq]
        exact hk
      have := ih h.2
      simp only [insertA, hk, if_false, countKey, List.filter_cons, he] at this ⊢
      exact this

/-- Looking up the inserted key returns the freshly inserted record. -/
theorem lookupA_insertA {l : List (Nat × AllocInfo)} {k : Nat} {v : AllocInfo} :
    lookupA (insertA l k v) k = some v := by
  induction l with
  | nil => simp [insertA, lookupA]
  | cons e rest ih =>
    by_cases hk : e.1 = k
    · simp [insertA, hk, lookupA]
    · have he : (e.1 == k) = false := by
        simp only [beq_eq_false_iff_ne, ne_eq]
        exact hk
      simp only [insertA, hk, if_false, lookupA, List.find?_cons, he] at ih ⊢
      exact ih

/-- C9.  When the manager's allocate call is satisfied by the default
pool, the pool config enables tracking and the global tracker is
enabled, the pointer is registered with the tracker twice (once inside
MemoryPool::allocate under the pool config name, once by
MemoryManager::allocate with the caller's tag): the tracker's
allocationCount rises by 2 and totalAllocated by twice the size for the
single allocation, while the live table keeps exactly one record for
the pointer — the manager-level registration having overwritten the
pool-level one. -/
theorem C9_manager_double_tracking {m : ManagerState} {P : PoolState}
    {size a q : Nat} {tag file : String} {line : Nat}
    (hini : m.inited = true) (hpool : m.defaultPool = some P)
    (hptrack : P.cfg.enableTracking = true)
    (htrack : m.tracker.trackingEnabled = true)
    (hpq : (P.allocate size a).1 = some q)
    (hnd : (m.tracker.allocations.map Prod.fst).Nodup)
    (hc : m.tracker.globalStats.allocationCount + 2 < W64)
    (hta : m.tracker.globalStats.totalAllocated + 2 * size < W64) :
    (m.allocate size a tag file line).1 = some q ∧
    (m.allocate size a tag file line).2.tracker.globalStats.allocationCount =
      m.tracker.globalStats.allocationCount + 2 ∧
    (m.allocate size a tag file line).2.tracker.globalStats.totalAllocated =
      m.tracker.globalStats.totalAllocated + 2 * size ∧
    countKey (m.allocate size a tag file line).2.tracker.allocations q = 1 ∧
    lookupA (m.allocate size a tag file line).2.tracker.allocations q =
      some ⟨q, size, a, tag, file, line, false⟩ := by
  have hres : (m.allocate size a tag file line).1 = some q ∧
      (m.allocate size a tag file line).2.tracker =
      { allocations := insertA (insertA m.tracker.allocations q
          ⟨q, size, a, P.cfg.name, "", 0, false⟩) q
          ⟨q, size, a, tag, file, line, false⟩
        globalStats := (m.tracker.globalStats.onAlloc size).onAlloc size
        trackingEnabled := m.tracker.trackingEnabled } := by
    constructor <;>
      simp [ManagerState.allocate, hini, hpool, poolAllocateT, hpq, hptrack,
        htrack, TrackerState.trackAllocation]
  refine ⟨hres.1, ?_, ?_, ?_, ?_⟩
  · rw [hres.2]
    have h1 : add64 m.tracker.globalStats.allocationCount 1 =
        m.tracker.globalStats.allocationCount + 1 := add64_eq_of_lt (by omega)
    simp only [MemoryStats.onAlloc, h1]
    rw [add64_eq_of_lt (by omega)]
  · rw [hres.2]
    have h1 : add64 m.tracker.globalStats.totalAllocated size =
        m.tracker.globalStats.totalAllocated + size := add64_eq_of_lt (by omega)
    simp only [MemoryStats.onAlloc, h1]
    rw [add64_eq_of_lt (by omega)]
    omega
  · rw [hres.2]
    exact countKey_insertA (keys_nodup_insertA hnd)
  · rw [hres.2]
    exact lookupA_insertA

/-- C9 (witness).  A concrete manager with a tracking default pool and
an enabled, empty tracker: one allocate(32, 8) with tag leaves
allocationCount 2, totalAllocated 64 and a single record for pointer
4096 carrying the manager-level tag. -/
theorem C9_manager_double_tracking_witness :
    ((⟨some (mkMemoryPool ⟨1024, 4096, 4096, 16, true, "Pool"⟩ [4096]),
        ⟨[], {}, true⟩, true, []⟩ : ManagerState).allocate
      32 8 "tag" "f.cpp" 7).1 = some 4096 ∧
    ((⟨some (mkMemoryPool ⟨1024, 4096, 4096, 16, true, "Pool"⟩ [4096]),
        ⟨[], {}, true⟩, true, []⟩ : ManagerState).allocate
      32 8 "tag" "f.cpp" 7).2.tracker.globalStats.allocationCount = 0 + 2 ∧
    ((⟨some (mkMemoryPool ⟨1024, 4096, 4096, 16, true, "Pool"⟩ [4096]),
        ⟨[], {}, true⟩, true, []⟩ : ManagerState).allocate
      32 8 "tag" "f.cpp" 7).2.tracker.globalStats.totalAllocated = 0 + 2 * 32 ∧
    countKey ((⟨some (mkMemoryPool ⟨1024, 4096, 4096, 16, true, "Pool"⟩ [4096]),
        ⟨[], {}, true⟩, true, []⟩ : ManagerState).allocate
      32 8 "tag" "f.cpp" 7).2.tracker.allocations 4096 = 1 ∧
    lookupA ((⟨some (mkMemoryPool ⟨1024, 4096, 4096, 16, true, "Pool"⟩ [4096]),
        ⟨[], {}, true⟩, true, []⟩ : ManagerState).allocate
      32 8 "tag" "f.cpp" 7).2.tracker.allocations 4096 =
      some ⟨4096, 32, 8, "tag", "f.cpp", 7, false⟩ :=
  C9_manager_double_tracking (P := mkMemoryPool ⟨1024, 4096, 4096, 16, true, "Pool"⟩ [4096])
    rfl rfl rfl rfl (by decide) (by decide) (by decide) (by decide)

/-- C10.  Zero-size edge case: for every pool state and every stack
allocator state, allocate(0, alignment) returns null and leaves the
state — blocks, bump offset, stats, everything — unchanged. -/
theorem C10_zero_size_allocate_noop :
    (∀ (s : PoolState) (a : Nat), s.allocate 0 a = (none, s)) ∧
    (∀ (st : StackState) (a : Nat), st.allocate 0 a = (none, st)) := by
  constructor
  · intro s a
    simp [PoolState.allocate]
  · intro st a
    simp [StackState.allocate]

end VaporFrame
